import Mathlib

/-!
Verification of the tidyf move-orchestration core.

The development shallowly embeds the file-moving layer of the tidyf
repository: the conflict resolver and move executor
(src/utils/files.ts), the history log (src/lib/history.ts), batch
execution and duplicate detection (src/commands/organize.ts,
executeProposals and detectDuplicates), the undo replay
(src/commands/undo.ts), the scanner of the Raycast variant
(lib/scanner.ts) and the debounced directory watcher
(src/lib/watcher.ts).

The filesystem is modelled as an association list from absolute path
strings to file contents.  Fallible primitives (rename, copyFile,
unlink) take an explicit error plan describing which of them the
environment makes fail, mirroring the try/catch structure of the
source.  All definitions are executable so that witnesses evaluate by
decide.
-/

set_option autoImplicit false

namespace Tidyf

/-! ## Definitions -/

/-- A filesystem: a finite map from paths to file contents, as an
association list.  Directories are implicit in the flat path space. -/
abbrev FS := List (String × String)

/-- Look up the content stored at a path. -/
def fsLookup : FS → String → Option String
  | [], _ => none
  | (k, v) :: rest, p => if k = p then some v else fsLookup rest p

/-- Model of fs.access / existsSync: does a file exist at the path. -/
def fsExists (fs : FS) (p : String) : Bool :=
  (fsLookup fs p).isSome

/-- Create or overwrite the file at a path. -/
def fsInsert : FS → String → String → FS
  | [], p, c => [(p, c)]
  | (k, v) :: rest, p, c =>
      if k = p then (k, c) :: rest else (k, v) :: fsInsert rest p c

/-- Remove the file at a path (fs.unlink). -/
def fsErase : FS → String → FS
  | [], _ => []
  | (k, v) :: rest, p =>
      if k = p then fsErase rest p else (k, v) :: fsErase rest p

/-- The set of paths bound in the filesystem. -/
def fsPaths (fs : FS) : List String := fs.map Prod.fst

/-- Little-endian decimal digits of a number; the fuel argument makes
the recursion structural and is always passed as the number itself. -/
def decDigits : Nat → Nat → List Nat
  | 0, _ => []
  | fuel + 1, n => if n = 0 then [] else n % 10 :: decDigits fuel (n / 10)

/-- Decimal string of a natural number, as produced by JavaScript
String(n) and by template interpolation. -/
def natStr (n : Nat) : String :=
  if n = 0 then "0"
  else ((decDigits n n).reverse.map Nat.digitChar).asString

/-- Characters of the last path component (after the last slash). -/
def lastComponent (l : List Char) : List Char :=
  (l.reverse.takeWhile (fun c => c ≠ '/')).reverse

/-- Characters strictly before the last slash, with the slash, reversed;
empty when the path has no slash. -/
def dirPartRev (l : List Char) : List Char :=
  l.reverse.dropWhile (fun c => c ≠ '/')

/-- Model of path.basename: the part after the last slash. -/
def pathBasename (s : String) : String :=
  (lastComponent s.data).asString

/-- Model of path.dirname for the cases exercised here: the part before
the last slash, a bare slash for top-level entries, and a dot when the
path has no slash at all. -/
def pathDirname (s : String) : String :=
  match dirPartRev s.data with
  | [] => "."
  | _ :: [] => "/"
  | _ :: before => before.reverse.asString

/-- Model of path.extname on the basename: the suffix from the last dot,
empty when there is no dot or when the only dot is the leading one. -/
def pathExtname (s : String) : String :=
  let name := lastComponent s.data
  let extRev := name.reverse.takeWhile (fun c => c ≠ '.')
  match name.reverse.dropWhile (fun c => c ≠ '.') with
  | [] => ""
  | _ :: [] => ""
  | _ :: _ => ('.' :: extRev.reverse).asString

/-- Model of path.join for a dirname result and a file name. -/
def pathJoin (dir name : String) : String :=
  if dir = "." then name
  else if dir = "/" then "/" ++ name
  else dir ++ "/" ++ name

/-- The n-th conflict-renamed sibling of a destination path: the base
name with a counter in parentheses inserted before the extension,
mirroring the newPath computation of generateUniqueName. -/
def candidateName (destination : String) (n : Nat) : String :=
  let ext := pathExtname destination
  let base := ((pathBasename destination).data.take
    ((pathBasename destination).length - ext.length)).asString
  pathJoin (pathDirname destination) (base ++ " (" ++ natStr n ++ ")" ++ ext)

/-- The probing loop of generateUniqueName: try counters in order until
a free sibling name is found.  The source loop is unbounded; the fuel
below is always chosen large enough that the fallback is unreachable. -/
def searchFree (fs : FS) (destination : String) : Nat → Nat → String
  | counter, 0 => candidateName destination counter
  | counter, fuel + 1 =>
      let c := candidateName destination counter
      if fsExists fs c then searchFree fs destination (counter + 1) fuel else c

/-- Model of generateUniqueName: return the destination unchanged when
it is free, otherwise probe "base (1)ext", "base (2)ext", ... until a
name not present in the filesystem is found. -/
def generateUniqueName (fs : FS) (destination : String) : String :=
  if fsExists fs destination then searchFree fs destination 1 (fs.length + 1)
  else destination

/-- Move statuses of a MoveResult. -/
inductive MoveStatus where
  | pending | moving | completed | failed | skipped | conflict
deriving DecidableEq, Repr

/-- Outcome of executing one move. -/
structure MoveResult where
  source : String
  destination : String
  status : MoveStatus
  error : Option String
deriving DecidableEq, Repr

/-- Conflict resolution strategies. -/
inductive ConflictStrategy where
  | rename | overwrite | skip
deriving DecidableEq, Repr

/-- Model of resolveConflict: when nothing exists at the destination the
move is pending at the unchanged path; otherwise the strategy decides
between a generated unique sibling, an overwrite, or a skip. -/
def resolveConflict (fs : FS) (destination : String)
    (strategy : ConflictStrategy) : String × MoveStatus :=
  if fsExists fs destination = false then (destination, .pending)
  else
    match strategy with
    | .rename => (generateUniqueName fs destination, .pending)
    | .overwrite => (destination, .pending)
    | .skip => (destination, .skipped)

/-- Outcome of the fs.rename primitive chosen by the environment:
success, a cross-device failure (EXDEV), or any other error. -/
inductive RenameOutcome where
  | ok | exdev | err (msg : String)
deriving DecidableEq, Repr

/-- Which fallible primitives the environment makes fail during one
moveFile call. -/
structure ErrPlan where
  renameOutcome : RenameOutcome
  copyOk : Bool
  unlinkOk : Bool
  backupOk : Bool
deriving DecidableEq, Repr

/-- An error plan on which every primitive succeeds. -/
def allOk : ErrPlan := ⟨.ok, true, true, true⟩

/-- An error plan forcing the cross-device fallback, which succeeds. -/
def exdevOk : ErrPlan := ⟨.exdev, true, true, true⟩

/-- The backup phase of moveFile: when the destination exists and the
backup option is set, copy the existing destination file to a fresh
backup sibling name. -/
def backupStep (fs : FS) (destination : String) (backup : Bool) : FS :=
  if fsExists fs destination && backup then
    match fsLookup fs destination with
    | some c =>
        fsInsert fs (generateUniqueName fs (destination ++ ".backup")) c
    | none => fs
  else fs

/-- The rename phase of moveFile: attempt the in-place rename, fall
back to copy-then-unlink when the environment reports EXDEV, and report
any other error as a failed result without touching the filesystem in
that step. -/
def renameStep (fs1 : FS) (source dest1 : String) (plan : ErrPlan) :
    FS × MoveResult :=
  match plan.renameOutcome with
  | .ok =>
      match fsLookup fs1 source with
      | some c =>
          (fsInsert (fsErase fs1 source) dest1 c,
            ⟨source, dest1, .completed, none⟩)
      | none => (fs1, ⟨source, dest1, .failed, some "ENOENT"⟩)
  | .exdev =>
      if plan.copyOk then
        match fsLookup fs1 source with
        | some c =>
            let fs2 := fsInsert fs1 dest1 c
            if plan.unlinkOk then
              (fsErase fs2 source, ⟨source, dest1, .completed, none⟩)
            else (fs2, ⟨source, dest1, .failed, some "unlink failed"⟩)
        | none => (fs1, ⟨source, dest1, .failed, some "ENOENT"⟩)
      else (fs1, ⟨source, dest1, .failed, some "copy failed"⟩)
  | .err m => (fs1, ⟨source, dest1, .failed, some m⟩)

/-- Model of moveFile.  Mirrors the source control flow: ensure the
destination directory (implicit here), optionally back up an existing
destination, divert to a unique sibling name unless overwrite is set,
then attempt the rename with its cross-device fallback. -/
def moveFile (fs : FS) (source destination : String)
    (overwrite backup : Bool) (plan : ErrPlan) : FS × MoveResult :=
  if fsExists fs destination && backup && !plan.backupOk then
    (fs, ⟨source, destination, .failed, some "backup copy failed"⟩)
  else
    renameStep (backupStep fs destination backup) source
      (if fsExists fs destination && !overwrite then
        generateUniqueName (backupStep fs destination backup) destination
      else destination) plan

/-- One recorded file move inside a history entry. -/
structure HistoryMove where
  source : String
  destination : String
  timestamp : String
deriving DecidableEq, Repr

/-- One organizing operation, recorded for undo. -/
structure HistoryEntry where
  id : String
  timestamp : String
  source : String
  target : String
  moves : List HistoryMove
deriving DecidableEq, Repr

/-- Model of createHistoryEntry: the id is Date.now().toString(), the
decimal string of the creation time in milliseconds. -/
def createHistoryEntry (nowMs : Nat) (nowIso : String)
    (source target : String) : HistoryEntry :=
  ⟨natStr nowMs, nowIso, source, target, []⟩

/-- Model of addMoveToHistory: push one move onto the entry. -/
def addMoveToHistory (entry : HistoryEntry) (source destination : String)
    (now : String) : HistoryEntry :=
  { entry with moves := entry.moves ++ [⟨source, destination, now⟩] }

/-- The on-disk history store.  A partial prefix of the JSON text of a
nonempty entry array is never itself valid JSON, so an interrupted
whole-file write is modelled by the corrupt state. -/
inductive StoreFile where
  | absent
  | ok (entries : List HistoryEntry)
  | corrupt
deriving DecidableEq, Repr

/-- Model of readHistory: a missing file reads as empty, a parse failure
is caught and degrades to empty. -/
def readHistory : StoreFile → List HistoryEntry
  | .absent => []
  | .ok es => es
  | .corrupt => []

/-- Model of writeHistory, which calls writeFileSync directly on the
history path: the file is truncated and rewritten in place, so an
interrupted write leaves a partial, unparsable file rather than the
previous contents. -/
def writeHistory (entries : List HistoryEntry) (interrupted : Bool) : StoreFile :=
  if interrupted then .corrupt else .ok entries

/-- Model of saveHistoryEntry: read the store, unshift the new entry at
the head, and rewrite the whole file. -/
def saveHistoryEntry (store : StoreFile) (entry : HistoryEntry)
    (interrupted : Bool) : StoreFile :=
  writeHistory (entry :: readHistory store) interrupted

/-- One move proposal, restricted to the fields executeProposals uses. -/
structure FileMoveProposal where
  sourcePath : String
  destination : String
deriving DecidableEq, Repr

/-- The per-proposal loop of executeProposals: each proposal is executed
with moveFile under overwrite false and backup false, every result is
collected, and exactly the completed moves are appended to the entry
with the proposed source and destination. -/
def execLoop (fs : FS) (props : List FileMoveProposal) (plans : Nat → ErrPlan)
    (entry : HistoryEntry) (now : String) :
    FS × List MoveResult × HistoryEntry :=
  match props with
  | [] => (fs, [], entry)
  | p :: ps =>
      let step := moveFile fs p.sourcePath p.destination false false (plans 0)
      let entry1 :=
        if step.2.status = .completed then
          addMoveToHistory entry p.sourcePath p.destination now
        else entry
      let rest := execLoop step.1 ps (fun i => plans (i + 1)) entry1 now
      (rest.1, step.2 :: rest.2.1, rest.2.2)

/-- Aggregate outcome of one batch execution. -/
structure ExecOutcome where
  fs : FS
  results : List MoveResult
  entry : HistoryEntry
  store : StoreFile
deriving DecidableEq, Repr

/-- Model of executeProposals: create the history entry, execute the
batch sequentially, then save the entry only when at least one move
completed. -/
def executeProposals (fs : FS) (store : StoreFile)
    (props : List FileMoveProposal) (plans : Nat → ErrPlan)
    (nowMs : Nat) (nowIso : String) (sourcePath targetPath : String) :
    ExecOutcome :=
  let entry0 := createHistoryEntry nowMs nowIso sourcePath targetPath
  let r := execLoop fs props plans entry0 nowIso
  let completed := r.2.1.countP (fun res => decide (res.status = .completed))
  let store1 := if 0 < completed then saveHistoryEntry store r.2.2 false else store
  ⟨r.1, r.2.1, r.2.2, store1⟩

/-- Model of undoMove: recreate the original parent directory (implicit
here) and rename the destination back to the source; any failure is
caught and reported as false. -/
def undoMove (fs : FS) (source destination : String) (renameOk : Bool) :
    FS × Bool :=
  if renameOk then
    match fsLookup fs destination with
    | some c => (fsInsert (fsErase fs destination) source c, true)
    | none => (fs, false)
  else (fs, false)

/-- The replay loop of undoCommand over the recorded moves of an entry:
a move whose destination no longer exists is skipped and counted as
failed, otherwise undoMove is attempted and tallied. -/
def undoEntryMoves (fs : FS) (moves : List HistoryMove)
    (renameOk : Nat → Bool) : FS × Nat × Nat :=
  match moves with
  | [] => (fs, 0, 0)
  | m :: rest =>
      if fsExists fs m.destination = false then
        let r := undoEntryMoves fs rest (fun i => renameOk (i + 1))
        (r.1, r.2.1, r.2.2 + 1)
      else
        let step := undoMove fs m.source m.destination (renameOk 0)
        let r := undoEntryMoves step.1 rest (fun i => renameOk (i + 1))
        if step.2 then (r.1, r.2.1 + 1, r.2.2) else (r.1, r.2.1, r.2.2 + 1)

/-- File facts consumed by detectDuplicates: the optional content hash
and the size in bytes. -/
structure FileMetadata where
  path : String
  size : Nat
  hash : Option String
deriving DecidableEq, Repr

/-- A set of files sharing a content hash. -/
structure DuplicateGroup where
  hash : String
  files : List FileMetadata
  wastedBytes : Nat
deriving DecidableEq, Repr

/-- Append a file under its hash in the insertion-ordered map, matching
the JavaScript Map update in detectDuplicates. -/
def addToHashMap (m : List (String × List FileMetadata)) (h : String)
    (f : FileMetadata) : List (String × List FileMetadata) :=
  match m with
  | [] => [(h, [f])]
  | (k, fl) :: rest =>
      if k = h then (k, fl ++ [f]) :: rest
      else (k, fl) :: addToHashMap rest h f

/-- One iteration of the grouping loop: files without a hash are
ignored, hashed files are appended under their hash. -/
def buildStep (m : List (String × List FileMetadata)) (f : FileMetadata) :
    List (String × List FileMetadata) :=
  match f.hash with
  | some h => addToHashMap m h f
  | none => m

/-- Group the hashed files by identical hash, in first-seen order. -/
def buildHashMap (files : List FileMetadata) :
    List (String × List FileMetadata) :=
  files.foldl buildStep []

/-- Look up the file list stored under a hash in the insertion-ordered
map. -/
def assocFind : List (String × List FileMetadata) → String → Option (List FileMetadata)
  | [], _ => none
  | (k, v) :: rest, h => if k = h then some v else assocFind rest h

/-- The keys of the insertion-ordered map. -/
def hashKeys (m : List (String × List FileMetadata)) : List String :=
  m.map Prod.fst

/-- Total size of a list of files. -/
def sumSizes (fl : List FileMetadata) : Nat :=
  fl.foldl (fun s f => s + f.size) 0

/-- Build one DuplicateGroup exactly as detectDuplicates does: the
wasted bytes subtract the size of the FIRST member of the group, not
the largest. -/
def mkGroup (h : String) (fl : List FileMetadata) : DuplicateGroup :=
  match fl with
  | [] => ⟨h, [], 0⟩
  | f :: _ => ⟨h, fl, sumSizes fl - f.size⟩

/-- Stable insertion into a list kept descending by wastedBytes,
modelling the JavaScript stable sort with comparator
b.wastedBytes - a.wastedBytes. -/
def insertDesc (g : DuplicateGroup) : List DuplicateGroup → List DuplicateGroup
  | [] => [g]
  | h :: t =>
      if h.wastedBytes ≤ g.wastedBytes then g :: h :: t
      else h :: insertDesc g t

/-- Stable sort descending by wastedBytes. -/
def sortDescByWasted (l : List DuplicateGroup) : List DuplicateGroup :=
  l.foldr insertDesc []

/-- Model of detectDuplicates: group by identical hash, keep groups of
at least two files, and sort descending by wastedBytes. -/
def detectDuplicates (files : List FileMetadata) : List DuplicateGroup :=
  sortDescByWasted
    (((buildHashMap files).filter (fun kv => decide (1 < kv.2.length))).map
      (fun kv => mkGroup kv.1 kv.2))

/-- Executable check that wastedBytes is non-increasing along a list. -/
def wastedSortedDesc : List DuplicateGroup → Bool
  | [] => true
  | [_] => true
  | a :: b :: t => decide (b.wastedBytes ≤ a.wastedBytes) && wastedSortedDesc (b :: t)

/-- Model of shouldIgnore: a pattern of the form *.ext matches by
suffix, any other pattern matches the file name exactly. -/
def shouldIgnore (filename : String) (patterns : List String) : Bool :=
  patterns.any (fun pattern =>
    if pattern.startsWith "*." then filename.endsWith (pattern.drop 1)
    else filename == pattern)

/-- A directory tree with per-directory readability, the input to the
scanner model; file entries carry the metadata getFileMetadata would
deliver for them. -/
inductive FsTree where
  | file (name : String) (meta : FileMetadata)
  | dir (name : String) (readable : Bool) (entries : List FsTree)
deriving Repr

/-- The entry loop of scanDirectoryInternal: ignored entries are
skipped, files contribute their metadata, and subdirectories are
recursed into when recursion is enabled and depth allows; a
subdirectory whose readdir fails contributes nothing and does not
abort its siblings. -/
def scanEntries (recursive : Bool) (maxDepth : Nat) (ignore : List String) :
    Nat → List FsTree → List FileMetadata
  | _, [] => []
  | d, .file n m :: rest =>
      (if shouldIgnore n ignore then [] else [m]) ++
        scanEntries recursive maxDepth ignore d rest
  | d, .dir n readable entries :: rest =>
      (if shouldIgnore n ignore then []
       else if recursive && (decide (maxDepth = 0) || decide (d < maxDepth)) then
         if readable then scanEntries recursive maxDepth ignore (d + 1) entries
         else []
       else []) ++ scanEntries recursive maxDepth ignore d rest

/-- Model of scanDirectory / scanDirectoryInternal on the requested
directory itself: a readdir failure at ANY level, the top level
included, is caught, logged and yields an empty list. -/
def scanDirectory (readable : Bool) (entries : List FsTree)
    (recursive : Bool) (maxDepth : Nat) (ignore : List String) :
    List FileMetadata :=
  if readable then scanEntries recursive maxDepth ignore 0 entries else []

/-- Watcher event kinds surfaced by the underlying watch primitive. -/
inductive WatchType where
  | add | change
deriving DecidableEq, Repr

/-- One raw filesystem notification. -/
structure WatchEvent where
  type : WatchType
  path : String
  timestamp : Nat
deriving DecidableEq, Repr

/-- The watcher state: the pending map (insertion-ordered, keyed by
path) and the absolute deadline of the single debounce timer. -/
structure WatcherState where
  pending : List (String × WatchEvent)
  timer : Option Nat
  delay : Nat
deriving DecidableEq, Repr

/-- A freshly started watcher with the configured debounce delay. -/
def initialWatcher (delay : Nat) : WatcherState :=
  ⟨[], none, delay⟩

/-- JavaScript Map.set: overwrite the entry in place or append it. -/
def mapSet (m : List (String × WatchEvent)) (k : String) (v : WatchEvent) :
    List (String × WatchEvent) :=
  match m with
  | [] => [(k, v)]
  | (k0, v0) :: rest =>
      if k0 = k then (k0, v) :: rest else (k0, v0) :: mapSet rest k v

/-- JavaScript Map.get on the pending map. -/
def mapGet : List (String × WatchEvent) → String → Option WatchEvent
  | [], _ => none
  | (k0, v0) :: rest, k => if k0 = k then some v0 else mapGet rest k

/-- Model of handleEvent: coalesce the event into the pending map by
path and reset the debounce timer to a full delay from now. -/
def handleEvent (s : WatcherState) (now : Nat) (ty : WatchType)
    (path : String) : WatcherState :=
  { s with
      pending := mapSet s.pending path ⟨ty, path, now⟩,
      timer := some (now + s.delay) }

/-- Model of flushPendingFiles: emit nothing when the pending map is
empty, otherwise drain it and emit the batch. -/
def flushPendingFiles (s : WatcherState) :
    WatcherState × Option (List WatchEvent) :=
  if s.pending.isEmpty then (s, none)
  else ({ s with pending := [] }, some (s.pending.map Prod.snd))

/-- Drive the watcher over a time-ordered list of raw events on the
single-threaded event loop: a pending timer whose deadline precedes the
next event fires first (clearing the timer handle), and after the last
event any pending timer fires.  Returns the emitted batches with their
emission times. -/
def runEvents (s : WatcherState) :
    List (Nat × WatchType × String) → List (Nat × List WatchEvent)
  | [] =>
      match s.timer with
      | some d =>
          match (flushPendingFiles { s with timer := none }).2 with
          | some batch => [(d, batch)]
          | none => []
      | none => []
  | (t, ty, p) :: rest =>
      match s.timer with
      | some d =>
          if d ≤ t then
            let f := flushPendingFiles { s with timer := none }
            let tail := runEvents (handleEvent f.1 t ty p) rest
            match f.2 with
            | some batch => (d, batch) :: tail
            | none => tail
          else runEvents (handleEvent s t ty p) rest
      | none => runEvents (handleEvent s t ty p) rest

/-! ## Basic lemmas about the filesystem model -/

theorem fsLookup_insert_self (fs : FS) (p c : String) :
    fsLookup (fsInsert fs p c) p = some c := by
  induction fs with
  | nil => simp [fsInsert, fsLookup]
  | cons kv rest ih =>
      obtain ⟨k, v⟩ := kv
      by_cases h : k = p <;> simp [fsInsert, fsLookup, h, ih]

theorem fsLookup_insert_ne (fs : FS) (p c q : String) (h : p ≠ q) :
    fsLookup (fsInsert fs p c) q = fsLookup fs q := by
  induction fs with
  | nil => simp [fsInsert, fsLookup, h]
  | cons kv rest ih =>
      obtain ⟨k, v⟩ := kv
      by_cases hk : k = p
      · subst hk; simp [fsInsert, fsLookup, h]
      · by_cases hq : k = q
        · subst hq; simp [fsInsert, fsLookup, hk, Ne.symm h, ih]
        · simp [fsInsert, fsLookup, hk, hq, ih]

theorem fsLookup_erase_self (fs : FS) (p : String) :
    fsLookup (fsErase fs p) p = none := by
  induction fs with
  | nil => simp [fsErase, fsLookup]
  | cons kv rest ih =>
      obtain ⟨k, v⟩ := kv
      by_cases h : k = p <;> simp [fsErase, fsLookup, h, ih]

theorem fsLookup_erase_ne (fs : FS) (p q : String) (h : p ≠ q) :
    fsLookup (fsErase fs p) q = fsLookup fs q := by
  induction fs with
  | nil => simp [fsErase, fsLookup]
  | cons kv rest ih =>
      obtain ⟨k, v⟩ := kv
      by_cases hk : k = p
      · subst hk
        have : k ≠ q := h
        simp [fsErase, fsLookup, this, ih]
      · by_cases hq : k = q
        · subst hq; simp [fsErase, fsLookup, hk, ih]
        · simp [fsErase, fsLookup, hk, hq, ih]

theorem fsExists_iff_mem_paths (fs : FS) (p : String) :
    fsExists fs p = true ↔ p ∈ fsPaths fs := by
  induction fs with
  | nil => simp [fsExists, fsLookup, fsPaths]
  | cons kv rest ih =>
      obtain ⟨k, v⟩ := kv
      by_cases h : k = p
      · subst h; simp [fsExists, fsLookup, fsPaths]
      · have step : fsExists ((k, v) :: rest) p = fsExists rest p := by
          simp [fsExists, fsLookup, h]
        rw [step, ih]
        simp [fsPaths, Ne.symm h]

theorem fsExists_false_iff (fs : FS) (p : String) :
    fsExists fs p = false ↔ fsLookup fs p = none := by
  rw [fsExists]
  cases fsLookup fs p <;> simp

theorem ne_of_free_occupied {fs : FS} {p q : String}
    (hp : fsExists fs p = false) (hq : fsExists fs q = true) : p ≠ q := by
  rintro rfl
  rw [hp] at hq
  simp at hq

/-! ## Lemmas about decimal strings -/

theorem decDigits_eq_digits : ∀ fuel n, n ≤ fuel → decDigits fuel n = Nat.digits 10 n := by
  intro fuel
  induction fuel with
  | zero =>
      intro n hn
      interval_cases n
      simp [decDigits]
  | succ fuel ih =>
      intro n hn
      by_cases h0 : n = 0
      · subst h0; simp [decDigits]
      · have hpos : 0 < n := Nat.pos_of_ne_zero h0
        have hdiv : n / 10 ≤ fuel := by
          have : n / 10 < n := Nat.div_lt_self hpos (by norm_num)
          omega
        rw [decDigits, if_neg h0, ih (n / 10) hdiv,
          Nat.digits_def' (by norm_num : (1:ℕ) < 10) hpos]

theorem digitChar_inj_lt10 : ∀ a < 10, ∀ b < 10, Nat.digitChar a = Nat.digitChar b → a = b := by
  decide

theorem map_digitChar_inj :
    ∀ l₁ l₂ : List Nat, (∀ x ∈ l₁, x < 10) → (∀ x ∈ l₂, x < 10) →
      l₁.map Nat.digitChar = l₂.map Nat.digitChar → l₁ = l₂ := by
  intro l₁
  induction l₁ with
  | nil =>
      intro l₂ _ _ h
      cases l₂ with
      | nil => rfl
      | cons b t => simp at h
  | cons a t ih =>
      intro l₂ h₁ h₂ h
      cases l₂ with
      | nil => simp at h
      | cons b t₂ =>
          simp only [List.map_cons, List.cons.injEq] at h
          have ha : a < 10 := h₁ a (by simp)
          have hb : b < 10 := h₂ b (by simp)
          have hab := digitChar_inj_lt10 a ha b hb h.1
          have ht := ih t₂ (fun x hx => h₁ x (by simp [hx]))
            (fun x hx => h₂ x (by simp [hx])) h.2
          rw [hab, ht]

theorem asString_data (l : List Char) : (List.asString l).data = l := rfl

theorem natStr_injective : Function.Injective natStr := by
  intro a b h
  by_cases ha : a = 0 <;> by_cases hb : b = 0
  · omega
  · exfalso
    subst ha
    rw [natStr, natStr, if_pos rfl, if_neg hb] at h
    have hdata : ("0" : String).data =
        ((decDigits b b).reverse.map Nat.digitChar) := by
      rw [h]; rfl
    rw [decDigits_eq_digits b b le_rfl] at hdata
    have hlt : ∀ x ∈ (Nat.digits 10 b).reverse, x < 10 := by
      intro x hx
      exact Nat.digits_lt_base (by norm_num) (List.mem_reverse.mp hx)
    have h0lt : ∀ x ∈ [(0 : Nat)], x < 10 := by simp
    have : [(0 : Nat)] = (Nat.digits 10 b).reverse := by
      apply map_digitChar_inj _ _ h0lt hlt
      simpa using hdata
    have hdig : Nat.digits 10 b = [0] := by
      have := congrArg List.reverse this
      simpa using this.symm
    have : b = 0 := by
      have := Nat.ofDigits_digits 10 b
      rw [hdig] at this
      simpa [Nat.ofDigits] using this.symm
    exact hb this
  · exfalso
    subst hb
    rw [natStr, natStr, if_pos rfl, if_neg ha] at h
    have hdata : ("0" : String).data =
        ((decDigits a a).reverse.map Nat.digitChar) := by
      rw [← h]; rfl
    rw [decDigits_eq_digits a a le_rfl] at hdata
    have hlt : ∀ x ∈ (Nat.digits 10 a).reverse, x < 10 := by
      intro x hx
      exact Nat.digits_lt_base (by norm_num) (List.mem_reverse.mp hx)
    have h0lt : ∀ x ∈ [(0 : Nat)], x < 10 := by simp
    have : [(0 : Nat)] = (Nat.digits 10 a).reverse := by
      apply map_digitChar_inj _ _ h0lt hlt
      simpa using hdata
    have hdig : Nat.digits 10 a = [0] := by
      have := congrArg List.reverse this
      simpa using this.symm
    have : a = 0 := by
      have := Nat.ofDigits_digits 10 a
      rw [hdig] at this
      simpa [Nat.ofDigits] using this.symm
    exact ha this
  · rw [natStr, natStr, if_neg ha, if_neg hb] at h
    have hdata : ((decDigits a a).reverse.map Nat.digitChar) =
        ((decDigits b b).reverse.map Nat.digitChar) := by
      have := congrArg String.data h
      simpa [asString_data] using this
    rw [decDigits_eq_digits a a le_rfl, decDigits_eq_digits b b le_rfl] at hdata
    have hla : ∀ x ∈ (Nat.digits 10 a).reverse, x < 10 := fun x hx =>
      Nat.digits_lt_base (by norm_num) (List.mem_reverse.mp hx)
    have hlb : ∀ x ∈ (Nat.digits 10 b).reverse, x < 10 := fun x hx =>
      Nat.digits_lt_base (by norm_num) (List.mem_reverse.mp hx)
    have hrev := map_digitChar_inj _ _ hla hlb hdata
    have hdig : Nat.digits 10 a = Nat.digits 10 b :=
      List.reverse_injective hrev
    calc a = Nat.ofDigits 10 (Nat.digits 10 a) := (Nat.ofDigits_digits 10 a).symm
      _ = Nat.ofDigits 10 (Nat.digits 10 b) := by rw [hdig]
      _ = b := Nat.ofDigits_digits 10 b

/-! ## Lemmas about candidate names and generateUniqueName -/

theorem string_data_injective {s t : String} (h : s.data = t.data) : s = t := by
  cases s; cases t; cases h; rfl

theorem strip_left (P : List Char) {X Y : List Char}
    (h : P ++ X = P ++ Y) : X = Y :=
  List.append_cancel_left h

theorem strip_right (S : List Char) {X Y : List Char}
    (h : X ++ S = Y ++ S) : X = Y :=
  List.append_cancel_right h

theorem pathJoin_right_inj (dir : String) {x y : String}
    (h : pathJoin dir x = pathJoin dir y) : x = y := by
  rw [pathJoin, pathJoin] at h
  by_cases h1 : dir = "."
  · rwa [if_pos h1, if_pos h1] at h
  · rw [if_neg h1, if_neg h1] at h
    by_cases h2 : dir = "/"
    · rw [if_pos h2, if_pos h2] at h
      have hd := congrArg String.data h
      simp only [String.data_append] at hd
      exact string_data_injective (strip_left ("/" : String).data hd)
    · rw [if_neg h2, if_neg h2] at h
      have hd := congrArg String.data h
      simp only [String.data_append] at hd
      exact string_data_injective
        (strip_left (dir.data ++ ("/" : String).data) hd)

theorem candidateName_inj (destination : String) :
    Function.Injective (candidateName destination) := by
  intro m n h
  apply natStr_injective
  apply string_data_injective
  rw [candidateName, candidateName] at h
  have hinner := pathJoin_right_inj (pathDirname destination) h
  have hd := congrArg String.data hinner
  simp only [String.data_append] at hd
  have h1 := strip_right (pathExtname destination).data hd
  have h2 := strip_right (")" : String).data h1
  exact strip_left _ h2

theorem searchFree_spec (fs : FS) (destination : String) :
    ∀ fuel counter,
      (∃ i, counter ≤ i ∧ i < counter + fuel ∧
        fsExists fs (candidateName destination i) = false) →
      fsExists fs (searchFree fs destination counter fuel) = false ∧
      ∃ j, counter ≤ j ∧
        searchFree fs destination counter fuel = candidateName destination j := by
  intro fuel
  induction fuel with
  | zero =>
      intro counter h
      obtain ⟨i, h1, h2, _⟩ := h
      omega
  | succ fuel ih =>
      intro counter h
      by_cases hv : fsExists fs (candidateName destination counter)
      · have hne : ∃ i, counter + 1 ≤ i ∧ i < counter + 1 + fuel ∧
            fsExists fs (candidateName destination i) = false := by
          obtain ⟨i, h1, h2, h3⟩ := h
          refine ⟨i, ?_, by omega, h3⟩
          rcases Nat.lt_or_ge counter i with hlt | hge
          · omega
          · exfalso
            have : i = counter := by omega
            rw [this, hv] at h3
            simp at h3
        have := ih (counter + 1) hne
        rw [searchFree]
        simp only [hv, if_true]
        exact ⟨this.1, by
          obtain ⟨j, hj1, hj2⟩ := this.2
          exact ⟨j, by omega, hj2⟩⟩
      · rw [searchFree]
        simp only [hv, if_false]
        exact ⟨by simpa using hv, counter, le_rfl, rfl⟩

theorem exists_free_candidate (fs : FS) (destination : String) :
    ∃ i, 1 ≤ i ∧ i < 1 + (fs.length + 1) ∧
      fsExists fs (candidateName destination i) = false := by
  by_contra hall
  push_neg at hall
  have hocc : ∀ i, 1 ≤ i → i < fs.length + 2 →
      fsExists fs (candidateName destination i) = true := by
    intro i h1 h2
    have := hall i h1 (by omega)
    revert this
    cases fsExists fs (candidateName destination i) <;> simp
  set L := (List.range (fs.length + 1)).map
    (fun k => candidateName destination (k + 1)) with hL
  have hnodup : L.Nodup := by
    apply List.Nodup.map
    · intro a b hab
      have := candidateName_inj destination hab
      omega
    · exact List.nodup_range _
  have hsub : L ⊆ fsPaths fs := by
    intro x hx
    rw [hL] at hx
    obtain ⟨k, hk, rfl⟩ := List.mem_map.mp hx
    have hk' : k < fs.length + 1 := List.mem_range.mp hk
    have := hocc (k + 1) (by omega) (by omega)
    exact (fsExists_iff_mem_paths fs _).mp this
  have hlen : L.length ≤ (fsPaths fs).length :=
    (List.subperm_of_subset hnodup hsub).length_le
  have hL1 : L.length = fs.length + 1 := by simp [hL]
  have hL2 : (fsPaths fs).length = fs.length := by simp [fsPaths]
  omega

theorem generateUniqueName_free (fs : FS) (destination : String) :
    fsExists fs (generateUniqueName fs destination) = false := by
  rw [generateUniqueName]
  by_cases h : fsExists fs destination
  · rw [if_pos h]
    exact (searchFree_spec fs destination (fs.length + 1) 1
      (exists_free_candidate fs destination)).1
  · rw [if_neg h]
    simpa using h

theorem generateUniqueName_form (fs : FS) (destination : String)
    (h : fsExists fs destination = true) :
    ∃ n, 1 ≤ n ∧
      generateUniqueName fs destination = candidateName destination n := by
  rw [generateUniqueName, if_pos h]
  exact (searchFree_spec fs destination (fs.length + 1) 1
    (exists_free_candidate fs destination)).2

/-! ## Lemmas about the move executor -/

theorem backupStep_false (fs : FS) (destination : String) :
    backupStep fs destination false = fs := by
  simp [backupStep]

theorem backupStep_lookup_occupied (fs : FS) (destination : String)
    (backup : Bool) (q : String) (hq : fsExists fs q = true) :
    fsLookup (backupStep fs destination backup) q = fsLookup fs q := by
  rw [backupStep]
  by_cases hc : (fsExists fs destination && backup) = true
  · rw [if_pos hc]
    cases hlook : fsLookup fs destination with
    | none => rfl
    | some c =>
        have hfree : fsExists fs
            (generateUniqueName fs (destination ++ ".backup")) = false :=
          generateUniqueName_free fs (destination ++ ".backup")
        exact fsLookup_insert_ne fs _ c q (ne_of_free_occupied hfree hq)
  · rw [if_neg hc]

theorem backupStep_exists_occupied (fs : FS) (destination : String)
    (backup : Bool) (q : String) (hq : fsExists fs q = true) :
    fsExists (backupStep fs destination backup) q = true := by
  rw [fsExists, backupStep_lookup_occupied fs destination backup q hq]
  exact hq

theorem renameStep_result_dest (fs1 : FS) (source dest1 : String)
    (plan : ErrPlan) :
    (renameStep fs1 source dest1 plan).2.destination = dest1 := by
  rw [renameStep]
  rcases plan with ⟨ro, co, uo, bo⟩
  cases ro with
  | ok => cases fsLookup fs1 source <;> rfl
  | exdev =>
      cases co with
      | false => rfl
      | true =>
          simp only [if_true]
          cases fsLookup fs1 source with
          | none => rfl
          | some c => cases uo <;> rfl
  | err m => rfl

theorem renameStep_other_preserved (fs1 : FS) (source dest1 : String)
    (plan : ErrPlan) (q : String) (hq1 : q ≠ source) (hq2 : q ≠ dest1) :
    fsLookup (renameStep fs1 source dest1 plan).1 q = fsLookup fs1 q := by
  rw [renameStep]
  rcases plan with ⟨ro, co, uo, bo⟩
  cases ro with
  | ok =>
      cases hlook : fsLookup fs1 source with
      | none => rfl
      | some c =>
          show fsLookup (fsInsert (fsErase fs1 source) dest1 c) q = _
          rw [fsLookup_insert_ne _ _ _ _ (Ne.symm hq2),
            fsLookup_erase_ne _ _ _ (Ne.symm hq1)]
  | exdev =>
      cases co with
      | false => rfl
      | true =>
          simp only [if_true]
          cases hlook : fsLookup fs1 source with
          | none => rfl
          | some c =>
              cases uo with
              | false =>
                  show fsLookup (fsInsert fs1 dest1 c) q = _
                  rw [fsLookup_insert_ne _ _ _ _ (Ne.symm hq2)]
              | true =>
                  show fsLookup (fsErase (fsInsert fs1 dest1 c) source) q = _
                  rw [fsLookup_erase_ne _ _ _ (Ne.symm hq1),
                    fsLookup_insert_ne _ _ _ _ (Ne.symm hq2)]
  | err m => rfl

theorem renameStep_failed_src_preserved (fs1 : FS) (source dest1 : String)
    (plan : ErrPlan) (hnd : dest1 ≠ source)
    (h : (renameStep fs1 source dest1 plan).2.status = .failed) :
    fsLookup (renameStep fs1 source dest1 plan).1 source = fsLookup fs1 source := by
  rw [renameStep] at h ⊢
  rcases plan with ⟨ro, co, uo, bo⟩
  cases ro with
  | ok =>
      cases hlook : fsLookup fs1 source with
      | none => exact hlook
      | some c => rw [hlook] at h; simp at h
  | exdev =>
      cases co with
      | false => rfl
      | true =>
          simp only [if_true] at h ⊢
          cases hlook : fsLookup fs1 source with
          | none => exact hlook
          | some c =>
              rw [hlook] at h
              cases uo with
              | false =>
                  show fsLookup (fsInsert fs1 dest1 c) source = some c
                  rw [fsLookup_insert_ne _ _ _ _ hnd, hlook]
              | true => simp at h
  | err m => rfl

theorem renameStep_completed_spec (fs1 : FS) (source dest1 : String)
    (plan : ErrPlan) (c : String) (hl : fsLookup fs1 source = some c)
    (hnd : dest1 ≠ source)
    (h : (renameStep fs1 source dest1 plan).2.status = .completed) :
    fsLookup (renameStep fs1 source dest1 plan).1 dest1 = some c ∧
    fsExists (renameStep fs1 source dest1 plan).1 source = false := by
  rw [renameStep] at h ⊢
  rcases plan with ⟨ro, co, uo, bo⟩
  cases ro with
  | ok =>
      rw [hl] at h ⊢
      constructor
      · show fsLookup (fsInsert (fsErase fs1 source) dest1 c) dest1 = some c
        rw [fsLookup_insert_self]
      · show fsExists (fsInsert (fsErase fs1 source) dest1 c) source = false
        rw [fsExists, fsLookup_insert_ne _ _ _ _ hnd, fsLookup_erase_self]
        rfl
  | exdev =>
      cases co with
      | false => simp at h
      | true =>
          simp only [if_true] at h ⊢
          rw [hl] at h ⊢
          cases uo with
          | false => simp at h
          | true =>
              constructor
              · show fsLookup (fsErase (fsInsert fs1 dest1 c) source) dest1 = some c
                rw [fsLookup_erase_ne _ _ _ (Ne.symm hnd), fsLookup_insert_self]
              · show fsExists (fsErase (fsInsert fs1 dest1 c) source) source = false
                rw [fsExists, fsLookup_erase_self]
                rfl
  | err m => simp at h

theorem renameStep_exdev_completed (fs1 : FS) (source dest1 : String)
    (plan : ErrPlan) (c : String) (hl : fsLookup fs1 source = some c)
    (hx : plan.renameOutcome = .exdev) (hc : plan.copyOk = true)
    (hu : plan.unlinkOk = true) :
    (renameStep fs1 source dest1 plan).2.status = .completed := by
  rw [renameStep, hx, hl]
  simp [hc, hu]

/-! ## Claim theorems -/

/-- C4: with an existing file at the destination, the rename strategy
resolves to a pending move at a path that does not exist at resolution
time, of the form base (n)ext with the counter inserted before the
extension, and once that path is itself occupied a repeated resolution
never returns it again. -/
theorem C4_resolveConflict_rename_fresh (fs : FS) (destination : String)
    (h : fsExists fs destination = true) :
    (resolveConflict fs destination .rename).2 = .pending ∧
    fsExists fs (resolveConflict fs destination .rename).1 = false ∧
    (∃ n, 1 ≤ n ∧ (resolveConflict fs destination .rename).1 =
      candidateName destination n) ∧
    ∀ c : String,
      (resolveConflict
        (fsInsert fs (resolveConflict fs destination .rename).1 c)
        destination .rename).1 ≠
      (resolveConflict fs destination .rename).1 := by
  have hres : resolveConflict fs destination .rename =
      (generateUniqueName fs destination, .pending) := by
    rw [resolveConflict, h]
    simp
  rw [hres]
  refine ⟨rfl, generateUniqueName_free fs destination, ?_, ?_⟩
  · exact generateUniqueName_form fs destination h
  · intro c
    set p := generateUniqueName fs destination with hp
    set fs2 := fsInsert fs p c with hfs2
    have hpfree : fsExists fs p = false :=
      generateUniqueName_free fs destination
    have hpne : p ≠ destination := ne_of_free_occupied hpfree h
    have hdest2 : fsExists fs2 destination = true := by
      rw [hfs2, fsExists, fsLookup_insert_ne fs p c destination hpne]
      exact h
    have hres2 : resolveConflict fs2 destination .rename =
        (generateUniqueName fs2 destination, .pending) := by
      rw [resolveConflict, hdest2]
      simp
    rw [hres2]
    have hfree2 : fsExists fs2 (generateUniqueName fs2 destination) = false :=
      generateUniqueName_free fs2 destination
    have hpin : fsExists fs2 p = true := by
      rw [hfs2, fsExists, fsLookup_insert_self]
      rfl
    exact ne_of_free_occupied hfree2 hpin

/-- Witness for C4 at a concrete one-file filesystem. -/
theorem C4_witness :
    fsExists [("/d/f.txt", "x")] "/d/f.txt" = true ∧
    ((resolveConflict [("/d/f.txt", "x")] "/d/f.txt" .rename).2 = .pending ∧
    fsExists [("/d/f.txt", "x")]
      (resolveConflict [("/d/f.txt", "x")] "/d/f.txt" .rename).1 = false ∧
    (∃ n, 1 ≤ n ∧ (resolveConflict [("/d/f.txt", "x")] "/d/f.txt" .rename).1 =
      candidateName "/d/f.txt" n) ∧
    ∀ c : String,
      (resolveConflict
        (fsInsert [("/d/f.txt", "x")]
          (resolveConflict [("/d/f.txt", "x")] "/d/f.txt" .rename).1 c)
        "/d/f.txt" .rename).1 ≠
      (resolveConflict [("/d/f.txt", "x")] "/d/f.txt" .rename).1) :=
  ⟨by decide, C4_resolveConflict_rename_fresh [("/d/f.txt", "x")] "/d/f.txt" (by decide)⟩

/-- C10: with the batch-execution options (overwrite false, backup
false) and an occupied destination, moveFile leaves the pre-existing
destination file untouched, diverts to the freshly generated unique
sibling, and reports that diverted path, which differs from the
requested destination. -/
theorem C10_moveFile_diverts (fs : FS) (source destination : String)
    (plan : ErrPlan)
    (hdest : fsExists fs destination = true)
    (hne : source ≠ destination) :
    fsLookup (moveFile fs source destination false false plan).1 destination =
      fsLookup fs destination ∧
    (moveFile fs source destination false false plan).2.destination =
      generateUniqueName fs destination ∧
    generateUniqueName fs destination ≠ destination := by
  have hgufree : fsExists fs (generateUniqueName fs destination) = false :=
    generateUniqueName_free fs destination
  have hgune : generateUniqueName fs destination ≠ destination :=
    ne_of_free_occupied hgufree hdest
  have hred : moveFile fs source destination false false plan =
      renameStep fs source (generateUniqueName fs destination) plan := by
    rw [moveFile]
    simp [backupStep_false, hdest]
  rw [hred]
  refine ⟨?_, renameStep_result_dest _ _ _ _, hgune⟩
  exact renameStep_other_preserved fs source _ plan destination
    (Ne.symm hne) (Ne.symm hgune)

/-- Witness for C10 on a two-file filesystem with the all-success
plan. -/
theorem C10_witness :
    fsExists [("/a/s.txt", "S"), ("/b/d.txt", "D")] "/b/d.txt" = true ∧
    "/a/s.txt" ≠ "/b/d.txt" ∧
    (fsLookup (moveFile [("/a/s.txt", "S"), ("/b/d.txt", "D")]
        "/a/s.txt" "/b/d.txt" false false allOk).1 "/b/d.txt" =
      fsLookup [("/a/s.txt", "S"), ("/b/d.txt", "D")] "/b/d.txt" ∧
    (moveFile [("/a/s.txt", "S"), ("/b/d.txt", "D")]
        "/a/s.txt" "/b/d.txt" false false allOk).2.destination =
      generateUniqueName [("/a/s.txt", "S"), ("/b/d.txt", "D")] "/b/d.txt" ∧
    generateUniqueName [("/a/s.txt", "S"), ("/b/d.txt", "D")] "/b/d.txt" ≠
      "/b/d.txt") :=
  ⟨by decide, by decide,
    C10_moveFile_diverts [("/a/s.txt", "S"), ("/b/d.txt", "D")]
      "/a/s.txt" "/b/d.txt" allOk (by decide) (by decide)⟩

/-- C1: when the rename fails with the cross-device code and the
copy-then-unlink fallback succeeds, moveFile reports completed with the
final destination holding exactly the former source content and the
source path gone; and whenever moveFile reports failed the source file
is untouched, so in particular a failed copy-then-delete never deletes
the source. -/
theorem C1_moveFile_exdev_fallback (fs : FS) (source destination : String)
    (overwrite backup : Bool) (plan : ErrPlan)
    (hsrc : fsExists fs source = true)
    (hne : source ≠ destination) :
    ((plan.renameOutcome = .exdev ∧ plan.copyOk = true ∧ plan.unlinkOk = true ∧
        plan.backupOk = true) →
      (moveFile fs source destination overwrite backup plan).2.status = .completed ∧
      fsLookup (moveFile fs source destination overwrite backup plan).1
        (moveFile fs source destination overwrite backup plan).2.destination =
        fsLookup fs source ∧
      fsExists (moveFile fs source destination overwrite backup plan).1 source
        = false) ∧
    ((moveFile fs source destination overwrite backup plan).2.status = .failed →
      fsLookup (moveFile fs source destination overwrite backup plan).1 source =
        fsLookup fs source) := by
  obtain ⟨c, hc⟩ : ∃ c, fsLookup fs source = some c := by
    rw [fsExists] at hsrc
    exact Option.isSome_iff_exists.mp hsrc
  by_cases hib : (fsExists fs destination && backup && !plan.backupOk) = true
  · have hred : moveFile fs source destination overwrite backup plan =
        (fs, ⟨source, destination, .failed, some "backup copy failed"⟩) := by
      rw [moveFile, if_pos hib]
    constructor
    · rintro ⟨_, _, _, hbk⟩
      rw [hbk] at hib
      simp at hib
    · intro _
      rw [hred]
  · have hq : fsLookup (backupStep fs destination backup) source =
        fsLookup fs source :=
      backupStep_lookup_occupied fs destination backup source hsrc
    have hsrc1 : fsExists (backupStep fs destination backup) source = true :=
      backupStep_exists_occupied fs destination backup source hsrc
    have hc1 : fsLookup (backupStep fs destination backup) source = some c := by
      rw [hq, hc]
    by_cases hdo : (fsExists fs destination && !overwrite) = true
    · have hred : moveFile fs source destination overwrite backup plan =
          renameStep (backupStep fs destination backup) source
            (generateUniqueName (backupStep fs destination backup) destination)
            plan := by
        rw [moveFile, if_neg hib, if_pos hdo]
      have hnd : generateUniqueName (backupStep fs destination backup)
          destination ≠ source :=
        ne_of_free_occupied
          (generateUniqueName_free (backupStep fs destination backup)
            destination) hsrc1
      constructor
      · rintro ⟨hx, hcp, hu, _⟩
        have hst := renameStep_exdev_completed
          (backupStep fs destination backup) source
          (generateUniqueName (backupStep fs destination backup) destination)
          plan c hc1 hx hcp hu
        have hspec := renameStep_completed_spec
          (backupStep fs destination backup) source
          (generateUniqueName (backupStep fs destination backup) destination)
          plan c hc1 hnd hst
        rw [hred]
        refine ⟨hst, ?_, hspec.2⟩
        rw [renameStep_result_dest, hspec.1, hc]
      · intro hfail
        rw [hred] at hfail ⊢
        rw [renameStep_failed_src_preserved _ _ _ _ hnd hfail, hq]
    · have hred : moveFile fs source destination overwrite backup plan =
          renameStep (backupStep fs destination backup) source destination
            plan := by
        rw [moveFile, if_neg hib, if_neg hdo]
      have hnd : destination ≠ source := Ne.symm hne
      constructor
      · rintro ⟨hx, hcp, hu, _⟩
        have hst := renameStep_exdev_completed
          (backupStep fs destination backup) source destination
          plan c hc1 hx hcp hu
        have hspec := renameStep_completed_spec
          (backupStep fs destination backup) source destination
          plan c hc1 hnd hst
        rw [hred]
        refine ⟨hst, ?_, hspec.2⟩
        rw [renameStep_result_dest, hspec.1, hc]
      · intro hfail
        rw [hred] at hfail ⊢
        rw [renameStep_failed_src_preserved _ _ _ _ hnd hfail, hq]

/-- Witness for C1 on a one-file filesystem with the successful
cross-device plan. -/
theorem C1_witness :
    fsExists [("/mnt1/f.txt", "data")] "/mnt1/f.txt" = true ∧
    "/mnt1/f.txt" ≠ "/mnt2/f.txt" ∧
    (((exdevOk.renameOutcome = .exdev ∧ exdevOk.copyOk = true ∧
        exdevOk.unlinkOk = true ∧ exdevOk.backupOk = true) →
      (moveFile [("/mnt1/f.txt", "data")] "/mnt1/f.txt" "/mnt2/f.txt"
        false false exdevOk).2.status = .completed ∧
      fsLookup (moveFile [("/mnt1/f.txt", "data")] "/mnt1/f.txt" "/mnt2/f.txt"
          false false exdevOk).1
        (moveFile [("/mnt1/f.txt", "data")] "/mnt1/f.txt" "/mnt2/f.txt"
          false false exdevOk).2.destination =
        fsLookup [("/mnt1/f.txt", "data")] "/mnt1/f.txt" ∧
      fsExists (moveFile [("/mnt1/f.txt", "data")] "/mnt1/f.txt" "/mnt2/f.txt"
        false false exdevOk).1 "/mnt1/f.txt" = false) ∧
    ((moveFile [("/mnt1/f.txt", "data")] "/mnt1/f.txt" "/mnt2/f.txt"
        false false exdevOk).2.status = .failed →
      fsLookup (moveFile [("/mnt1/f.txt", "data")] "/mnt1/f.txt" "/mnt2/f.txt"
          false false exdevOk).1 "/mnt1/f.txt" =
        fsLookup [("/mnt1/f.txt", "data")] "/mnt1/f.txt")) :=
  ⟨by decide, by decide,
    C1_moveFile_exdev_fallback [("/mnt1/f.txt", "data")] "/mnt1/f.txt"
      "/mnt2/f.txt" false false exdevOk (by decide) (by decide)⟩

/-- C8: a completed move from A to B recorded in a history entry is
reversed by the undo replay: the swapped rename restores the original
content at A, leaves nothing at B, and tallies one success and no
failures. -/
theorem C8_roundtrip (fs : FS) (A B : String) (plan : ErrPlan)
    (t : Nat) (iso sa ta : String)
    (hA : fsExists fs A = true) (hB : fsExists fs B = false) (hne : A ≠ B)
    (hcomp : (moveFile fs A B false false plan).2.status = .completed) :
    fsLookup (undoEntryMoves (moveFile fs A B false false plan).1
        (addMoveToHistory (createHistoryEntry t iso sa ta) A B iso).moves
        (fun _ => true)).1 A = fsLookup fs A ∧
    fsExists (undoEntryMoves (moveFile fs A B false false plan).1
        (addMoveToHistory (createHistoryEntry t iso sa ta) A B iso).moves
        (fun _ => true)).1 B = false ∧
    (undoEntryMoves (moveFile fs A B false false plan).1
        (addMoveToHistory (createHistoryEntry t iso sa ta) A B iso).moves
        (fun _ => true)).2.1 = 1 ∧
    (undoEntryMoves (moveFile fs A B false false plan).1
        (addMoveToHistory (createHistoryEntry t iso sa ta) A B iso).moves
        (fun _ => true)).2.2 = 0 := by
  obtain ⟨c, hc⟩ : ∃ c, fsLookup fs A = some c := by
    rw [fsExists] at hA
    exact Option.isSome_iff_exists.mp hA
  have hred : moveFile fs A B false false plan = renameStep fs A B plan := by
    rw [moveFile]
    simp [backupStep_false, hB]
  rw [hred] at hcomp
  have hspec := renameStep_completed_spec fs A B plan c hc (Ne.symm hne) hcomp
  have hmoves : (addMoveToHistory (createHistoryEntry t iso sa ta) A B iso).moves
      = [⟨A, B, iso⟩] := rfl
  rw [hred, hmoves]
  have hexB : fsExists (renameStep fs A B plan).1 B = true := by
    rw [fsExists, hspec.1]
    rfl
  have hrun : undoEntryMoves (renameStep fs A B plan).1 [⟨A, B, iso⟩]
      (fun _ => true) =
      (fsInsert (fsErase (renameStep fs A B plan).1 B) A c, 1, 0) := by
    rw [undoEntryMoves]
    rw [if_neg (by rw [hexB]; simp)]
    rw [undoMove, if_pos rfl, hspec.1]
    rfl
  rw [hrun]
  refine ⟨?_, ?_, rfl, rfl⟩
  · rw [fsLookup_insert_self, hc]
  · rw [fsExists, fsLookup_insert_ne _ _ _ _ hne, fsLookup_erase_self]
    rfl

/-- Witness for C8: a cross-device move of one file and its undo. -/
theorem C8_witness :
    fsExists [("/a/x", "X")] "/a/x" = true ∧
    fsExists [("/a/x", "X")] "/b/x" = false ∧
    "/a/x" ≠ "/b/x" ∧
    (moveFile [("/a/x", "X")] "/a/x" "/b/x" false false exdevOk).2.status
      = .completed ∧
    (fsLookup (undoEntryMoves
        (moveFile [("/a/x", "X")] "/a/x" "/b/x" false false exdevOk).1
        (addMoveToHistory (createHistoryEntry 7 "ts" "/a" "/b") "/a/x" "/b/x"
          "ts").moves (fun _ => true)).1 "/a/x" =
      fsLookup [("/a/x", "X")] "/a/x" ∧
    fsExists (undoEntryMoves
        (moveFile [("/a/x", "X")] "/a/x" "/b/x" false false exdevOk).1
        (addMoveToHistory (createHistoryEntry 7 "ts" "/a" "/b") "/a/x" "/b/x"
          "ts").moves (fun _ => true)).1 "/b/x" = false ∧
    (undoEntryMoves
        (moveFile [("/a/x", "X")] "/a/x" "/b/x" false false exdevOk).1
        (addMoveToHistory (createHistoryEntry 7 "ts" "/a" "/b") "/a/x" "/b/x"
          "ts").moves (fun _ => true)).2.1 = 1 ∧
    (undoEntryMoves
        (moveFile [("/a/x", "X")] "/a/x" "/b/x" false false exdevOk).1
        (addMoveToHistory (createHistoryEntry 7 "ts" "/a" "/b") "/a/x" "/b/x"
          "ts").moves (fun _ => true)).2.2 = 0) :=
  ⟨by decide, by decide, by decide, by decide,
    C8_roundtrip [("/a/x", "X")] "/a/x" "/b/x" exdevOk 7 "ts" "/a" "/b"
      (by decide) (by decide) (by decide) (by decide)⟩

/-- C5 counterexample: the persist write is a direct whole-file
rewrite, so interrupting it corrupts the store and the previously
stored entry is lost (the read degrades to empty). -/
theorem C5_counterexample :
    readHistory (saveHistoryEntry
      (.ok [createHistoryEntry 1 "t0" "/a" "/b"])
      (createHistoryEntry 2 "t1" "/c" "/d") true) = [] ∧
    readHistory (.ok [createHistoryEntry 1 "t0" "/a" "/b"]) =
      [createHistoryEntry 1 "t0" "/a" "/b"] ∧
    [createHistoryEntry 1 "t0" "/a" "/b"] ≠ ([] : List HistoryEntry) := by
  refine ⟨rfl, rfl, ?_⟩
  decide

/-- C5 amended: saveHistoryEntry inserts the entry at the head of the
stored list, but the rewrite is a plain in-place whole-file write, not
a temp-and-swap: an interrupted persist leaves an unparsable file and
the history then reads back empty. -/
theorem C5_persist_head_not_transactional (store : StoreFile)
    (entry : HistoryEntry) :
    readHistory (saveHistoryEntry store entry false) =
      entry :: readHistory store ∧
    readHistory (saveHistoryEntry store entry true) = [] :=
  ⟨rfl, rfl⟩

/-- C9 counterexample: two distinct entries created in the same
millisecond share an id, refuting unconditional id uniqueness. -/
theorem C9_counterexample :
    createHistoryEntry 5 "t" "/a" "/b" ≠ createHistoryEntry 5 "t" "/c" "/d" ∧
    (createHistoryEntry 5 "t" "/a" "/b").id =
      (createHistoryEntry 5 "t" "/c" "/d").id := by
  constructor
  · decide
  · rfl

/-- C9 amended: the id of an entry is the decimal string of its
creation time in milliseconds, so two entries share an id exactly when
created in the same millisecond; across distinct milliseconds ids are
unique and determine (hence order by) creation time. -/
theorem C9_id_decimal_of_creation_ms (t1 t2 : Nat)
    (i1 i2 s1 s2 a1 a2 : String) :
    ((createHistoryEntry t1 i1 s1 a1).id = (createHistoryEntry t2 i2 s2 a2).id
      ↔ t1 = t2) ∧
    (createHistoryEntry t1 i1 s1 a1).id = natStr t1 := by
  refine ⟨⟨fun h => natStr_injective h, fun h => by subst h; rfl⟩, rfl⟩

/-- C6 counterexample: an unreadable top-level directory that does
contain a file scans to the empty list with no surfaced error, while
the same directory scans to its file when readable. -/
theorem C6_counterexample :
    scanDirectory false [.file "a.txt" ⟨"/r/a.txt", 5, none⟩] true 0 [] = [] ∧
    scanDirectory true [.file "a.txt" ⟨"/r/a.txt", 5, none⟩] true 0 [] =
      [⟨"/r/a.txt", 5, none⟩] := by
  constructor
  · rfl
  · simp [scanDirectory, scanEntries, shouldIgnore]

theorem scanEntries_append (recursive : Bool) (maxDepth : Nat)
    (ignore : List String) (d : Nat) :
    ∀ xs ys : List FsTree,
      scanEntries recursive maxDepth ignore d (xs ++ ys) =
        scanEntries recursive maxDepth ignore d xs ++
        scanEntries recursive maxDepth ignore d ys := by
  intro xs
  induction xs with
  | nil => intro ys; simp [scanEntries]
  | cons x rest ih =>
      intro ys
      cases x with
      | file n m =>
          simp only [List.cons_append, scanEntries, ih, List.append_assoc]
      | dir n readable entries =>
          simp only [List.cons_append, scanEntries, ih, List.append_assoc]

theorem scanEntries_unreadable_dir (recursive : Bool) (maxDepth : Nat)
    (ignore : List String) (d : Nat) (n : String) (cs : List FsTree) :
    scanEntries recursive maxDepth ignore d [.dir n false cs] = [] := by
  have hnil : scanEntries recursive maxDepth ignore d [] = [] := by
    rw [scanEntries]
  rw [scanEntries]
  split
  · simp [hnil]
  · split
    · simp [hnil]
    · simp [hnil]

/-- C6 amended: an unreadable directory is silently skipped at every
level: an unreadable top-level directory makes scanDirectory return an
empty list (no error is surfaced to the caller), and an unreadable
subdirectory contributes nothing while its siblings are still
scanned. -/
theorem C6_scan_unreadable_silent (entries : List FsTree) (recursive : Bool)
    (maxDepth : Nat) (ignore : List String) :
    scanDirectory false entries recursive maxDepth ignore = [] ∧
    ∀ (pre post : List FsTree) (n : String) (cs : List FsTree) (d : Nat),
      scanEntries recursive maxDepth ignore d
          (pre ++ .dir n false cs :: post) =
        scanEntries recursive maxDepth ignore d pre ++
        scanEntries recursive maxDepth ignore d post := by
  constructor
  · rfl
  · intro pre post n cs d
    have h1 : pre ++ FsTree.dir n false cs :: post =
        pre ++ [FsTree.dir n false cs] ++ post := by simp
    rw [h1, scanEntries_append, scanEntries_append,
      scanEntries_unreadable_dir]
    simp

theorem mapGet_mapSet_self (m : List (String × WatchEvent)) (k : String)
    (v : WatchEvent) : mapGet (mapSet m k v) k = some v := by
  induction m with
  | nil => simp [mapSet, mapGet]
  | cons kv rest ih =>
      obtain ⟨k0, v0⟩ := kv
      by_cases h : k0 = k <;> simp [mapSet, mapGet, h, ih]

/-- C7: the watcher coalesces repeated events per path to the latest
one, resets the debounce timer to a full delay on every event
(trailing-edge debounce), emits nothing when the timer fires on an
empty pending map, and a three-event burst at 0, 500 and 2500
milliseconds with a 3000 millisecond delay yields exactly one batch at
5500 containing the single coalesced latest event. -/
theorem C7_watcher_debounce :
    (∀ (s : WatcherState) (now : Nat) (ty : WatchType) (path : String),
      (handleEvent s now ty path).timer = some (now + s.delay) ∧
      mapGet (handleEvent s now ty path).pending path = some ⟨ty, path, now⟩) ∧
    (∀ (timer : Option Nat) (delay : Nat),
      (flushPendingFiles ⟨[], timer, delay⟩).2 = none) ∧
    runEvents (initialWatcher 3000)
      [(0, .add, "f"), (500, .change, "f"), (2500, .change, "f")] =
      [(5500, [⟨.change, "f", 2500⟩])] := by
  refine ⟨?_, ?_, ?_⟩
  · intro s now ty path
    exact ⟨rfl, mapGet_mapSet_self s.pending path _⟩
  · intro timer delay
    rfl
  · rfl

theorem execLoop_results_length (props : List FileMoveProposal) :
    ∀ (fs : FS) (plans : Nat → ErrPlan) (entry : HistoryEntry) (now : String),
      (execLoop fs props plans entry now).2.1.length = props.length := by
  induction props with
  | nil => intro fs plans entry now; simp [execLoop]
  | cons p ps ih =>
      intro fs plans entry now
      simp only [execLoop, List.length_cons]
      rw [ih]

theorem execLoop_moves (props : List FileMoveProposal) :
    ∀ (fs : FS) (plans : Nat → ErrPlan) (entry : HistoryEntry) (now : String),
      (execLoop fs props plans entry now).2.2.moves =
        entry.moves ++
          ((props.zip (execLoop fs props plans entry now).2.1).filter
            (fun pr => decide (pr.2.status = .completed))).map
            (fun pr => (⟨pr.1.sourcePath, pr.1.destination, now⟩ : HistoryMove)) := by
  induction props with
  | nil => intro fs plans entry now; simp [execLoop]
  | cons p ps ih =>
      intro fs plans entry now
      by_cases hst : (moveFile fs p.sourcePath p.destination false false
          (plans 0)).2.status = MoveStatus.completed
      · simp only [execLoop, hst, if_pos, List.zip_cons_cons, List.filter_cons,
          decide_eq_true_eq, List.map_cons]
        rw [ih]
        simp [addMoveToHistory, hst]
      · simp only [execLoop, hst, if_neg, List.zip_cons_cons, List.filter_cons,
          decide_eq_true_eq, List.map_cons]
        rw [ih]
        simp [hst]

theorem zip_filter_length (ps : List FileMoveProposal) :
    ∀ rs : List MoveResult, ps.length = rs.length →
      ((ps.zip rs).filter (fun pr => decide (pr.2.status = .completed))).length =
        rs.countP (fun r => decide (r.status = .completed)) := by
  induction ps with
  | nil =>
      intro rs h
      have : rs = [] := List.eq_nil_of_length_eq_zero h.symm
      subst this
      simp
  | cons p ps ih =>
      intro rs h
      cases rs with
      | nil => simp at h
      | cons r rest =>
          simp only [List.length_cons, Nat.succ.injEq] at h
          by_cases hst : r.status = MoveStatus.completed
          · simp [List.zip_cons_cons, List.filter_cons, List.countP_cons,
              hst, ih rest h]
          · simp [List.zip_cons_cons, List.filter_cons, List.countP_cons,
              hst, ih rest h]

/-- C2: every proposal in a batch is attempted regardless of earlier
failures (one result per proposal), the history entry holds exactly the
completed proposals with their proposed source and destination in the
original relative order, the number of recorded moves equals the number
of completed results, and the entry is persisted at the head of the log
exactly when at least one move completed, so a persisted entry never
has zero moves. -/
theorem C2_executeProposals_spec (fs : FS) (store : StoreFile)
    (props : List FileMoveProposal) (plans : Nat → ErrPlan)
    (nowMs : Nat) (nowIso sourcePath targetPath : String) :
    (executeProposals fs store props plans nowMs nowIso sourcePath
      targetPath).results.length = props.length ∧
    (executeProposals fs store props plans nowMs nowIso sourcePath
      targetPath).entry.moves =
      ((props.zip (executeProposals fs store props plans nowMs nowIso
          sourcePath targetPath).results).filter
        (fun pr => decide (pr.2.status = .completed))).map
        (fun pr => (⟨pr.1.sourcePath, pr.1.destination, nowIso⟩ : HistoryMove)) ∧
    (executeProposals fs store props plans nowMs nowIso sourcePath
      targetPath).entry.moves.length =
      (executeProposals fs store props plans nowMs nowIso sourcePath
        targetPath).results.countP (fun r => decide (r.status = .completed)) ∧
    readHistory (executeProposals fs store props plans nowMs nowIso sourcePath
      targetPath).store =
      (if 0 < (executeProposals fs store props plans nowMs nowIso sourcePath
          targetPath).results.countP (fun r => decide (r.status = .completed))
       then (executeProposals fs store props plans nowMs nowIso sourcePath
          targetPath).entry :: readHistory store
       else readHistory store) := by
  have hlen := execLoop_results_length props fs plans
    (createHistoryEntry nowMs nowIso sourcePath targetPath) nowIso
  have hmoves := execLoop_moves props fs plans
    (createHistoryEntry nowMs nowIso sourcePath targetPath) nowIso
  have hentry0 : (createHistoryEntry nowMs nowIso sourcePath targetPath).moves
      = [] := rfl
  rw [hentry0, List.nil_append] at hmoves
  refine ⟨?_, ?_, ?_, ?_⟩
  · simp only [executeProposals]
    exact hlen
  · simp only [executeProposals]
    exact hmoves
  · simp only [executeProposals]
    rw [hmoves, List.length_map]
    exact zip_filter_length props _ hlen.symm
  · simp only [executeProposals]
    by_cases hc : 0 < (execLoop fs props plans
        (createHistoryEntry nowMs nowIso sourcePath targetPath)
        nowIso).2.1.countP (fun r => decide (r.status = .completed))
    · rw [if_pos hc, if_pos hc]
      rfl
    · rw [if_neg hc, if_neg hc]

/-! ## Lemmas about the duplicate detector -/

theorem assocFind_addToHashMap (m : List (String × List FileMetadata))
    (h : String) (f : FileMetadata) (q : String) :
    assocFind (addToHashMap m h f) q =
      if q = h then some ((assocFind m h).getD [] ++ [f])
      else assocFind m q := by
  induction m with
  | nil =>
      by_cases hq : q = h
      · subst hq; simp [addToHashMap, assocFind]
      · simp [addToHashMap, assocFind, hq, Ne.symm hq]
  | cons kv rest ih =>
      obtain ⟨k, v⟩ := kv
      by_cases hk : k = h
      · subst hk
        by_cases hq : q = k
        · subst hq; simp [addToHashMap, assocFind]
        · simp [addToHashMap, assocFind, hq, Ne.symm hq]
      · by_cases hq : q = h
        · subst hq
          have hkq : k ≠ q := hk
          simp [addToHashMap, assocFind, hk, hkq, ih]
        · by_cases hkq : k = q
          · subst hkq; simp [addToHashMap, assocFind, hk, hq, ih]
          · simp [addToHashMap, assocFind, hk, hq, hkq, ih]

theorem buildStep_none (m : List (String × List FileMetadata))
    (f : FileMetadata) (hf : f.hash = none) : buildStep m f = m := by
  rw [buildStep, hf]

theorem buildStep_some (m : List (String × List FileMetadata))
    (f : FileMetadata) (h0 : String) (hf : f.hash = some h0) :
    buildStep m f = addToHashMap m h0 f := by
  rw [buildStep, hf]

theorem buildAux_getD (files : List FileMetadata) :
    ∀ (acc : List (String × List FileMetadata)) (h : String),
      (assocFind (files.foldl buildStep acc) h).getD [] =
        (assocFind acc h).getD [] ++
          files.filter (fun f => decide (f.hash = some h)) := by
  induction files with
  | nil => intro acc h; simp
  | cons f rest ih =>
      intro acc h
      rw [List.foldl_cons, List.filter_cons]
      cases hf : f.hash with
      | none =>
          rw [buildStep_none acc f hf, ih acc h]
          simp [hf]
      | some h0 =>
          rw [buildStep_some acc f h0 hf, ih (addToHashMap acc h0 f) h,
            assocFind_addToHashMap]
          by_cases hh : h = h0
          · subst hh
            rw [if_pos rfl]
            simp
          · rw [if_neg hh]
            simp [Option.some.injEq, Ne.symm hh]

theorem buildAux_none (files : List FileMetadata) :
    ∀ (acc : List (String × List FileMetadata)) (h : String),
      assocFind (files.foldl buildStep acc) h = none ↔
      (assocFind acc h = none ∧
        files.filter (fun f => decide (f.hash = some h)) = []) := by
  induction files with
  | nil => intro acc h; simp
  | cons f rest ih =>
      intro acc h
      rw [List.foldl_cons, List.filter_cons]
      cases hf : f.hash with
      | none =>
          rw [buildStep_none acc f hf, ih acc h]
          simp
      | some h0 =>
          rw [buildStep_some acc f h0 hf, ih (addToHashMap acc h0 f) h,
            assocFind_addToHashMap]
          by_cases hh : h = h0
          · subst hh
            rw [if_pos rfl]
            simp
          · rw [if_neg hh]
            simp [Option.some.injEq, Ne.symm hh]

theorem mem_hashKeys_addToHashMap (m : List (String × List FileMetadata))
    (h : String) (f : FileMetadata) (q : String) :
    q ∈ hashKeys (addToHashMap m h f) ↔ q ∈ hashKeys m ∨ q = h := by
  induction m with
  | nil => simp [addToHashMap, hashKeys]
  | cons kv rest ih =>
      obtain ⟨k, v⟩ := kv
      by_cases hk : k = h
      · subst hk
        simp [addToHashMap, hashKeys]
        tauto
      · simp [addToHashMap, hashKeys, hk] at ih ⊢
        tauto

theorem nodup_hashKeys_addToHashMap (m : List (String × List FileMetadata))
    (h : String) (f : FileMetadata) (hnd : (hashKeys m).Nodup) :
    (hashKeys (addToHashMap m h f)).Nodup := by
  induction m with
  | nil => simp [addToHashMap, hashKeys]
  | cons kv rest ih =>
      obtain ⟨k, v⟩ := kv
      simp only [hashKeys, List.map_cons, List.nodup_cons] at hnd
      by_cases hk : k = h
      · subst hk
        have hstep : addToHashMap ((k, v) :: rest) k f = (k, v ++ [f]) :: rest := by
          simp [addToHashMap]
        rw [hstep]
        simp only [hashKeys, List.map_cons, List.nodup_cons]
        exact hnd
      · have hstep : addToHashMap ((k, v) :: rest) h f =
            (k, v) :: addToHashMap rest h f := by
          simp [addToHashMap, hk]
        rw [hstep]
        simp only [hashKeys, List.map_cons, List.nodup_cons]
        constructor
        · intro hmem
          have := (mem_hashKeys_addToHashMap rest h f k).mp hmem
          rcases this with hin | heq
          · exact hnd.1 hin
          · exact hk heq
        · exact ih hnd.2

theorem nodup_hashKeys_buildAux (files : List FileMetadata) :
    ∀ acc : List (String × List FileMetadata), (hashKeys acc).Nodup →
      (hashKeys (files.foldl buildStep acc)).Nodup := by
  induction files with
  | nil => intro acc h; simpa using h
  | cons f rest ih =>
      intro acc h
      rw [List.foldl_cons]
      cases hf : f.hash with
      | none =>
          rw [buildStep_none acc f hf]
          exact ih acc h
      | some h0 =>
          rw [buildStep_some acc f h0 hf]
          exact ih (addToHashMap acc h0 f) (nodup_hashKeys_addToHashMap acc h0 f h)

theorem assocFind_of_mem (m : List (String × List FileMetadata))
    (kv : String × List FileMetadata) (hmem : kv ∈ m)
    (hnd : (hashKeys m).Nodup) : assocFind m kv.1 = some kv.2 := by
  induction m with
  | nil => simp at hmem
  | cons kv0 rest ih =>
      obtain ⟨k, v⟩ := kv0
      simp only [hashKeys, List.map_cons, List.nodup_cons] at hnd
      rcases List.mem_cons.mp hmem with heq | hin
      · subst heq; simp [assocFind]
      · have hne : k ≠ kv.1 := by
          intro hkk
          apply hnd.1
          rw [hkk]
          exact List.mem_map.mpr ⟨kv, hin, rfl⟩
        simp only [assocFind, if_neg hne]
        exact ih hin hnd.2

theorem mem_of_assocFind (m : List (String × List FileMetadata))
    (h : String) (l : List FileMetadata)
    (hfind : assocFind m h = some l) : (h, l) ∈ m := by
  induction m with
  | nil => simp [assocFind] at hfind
  | cons kv rest ih =>
      obtain ⟨k, v⟩ := kv
      by_cases hk : k = h
      · subst hk
        rw [assocFind, if_pos rfl] at hfind
        cases hfind
        exact List.mem_cons_self _ _
      · rw [assocFind, if_neg hk] at hfind
        exact List.mem_cons_of_mem _ (ih hfind)

/-- Every entry of the hash map built from a file list holds exactly
the files carrying that hash, in input order. -/
theorem buildHashMap_entry (files : List FileMetadata)
    (kv : String × List FileMetadata) (hmem : kv ∈ buildHashMap files) :
    kv.2 = files.filter (fun f => decide (f.hash = some kv.1)) := by
  have hnd := nodup_hashKeys_buildAux files [] (by simp [hashKeys])
  have hfind := assocFind_of_mem _ kv hmem hnd
  have := buildAux_getD files [] kv.1
  rw [buildHashMap] at hfind
  rw [hfind] at this
  simpa [assocFind] using this

/-- Every hash carried by at least one file appears in the built map,
bound to the filtered file list. -/
theorem buildHashMap_complete (files : List FileMetadata) (h : String)
    (hne : files.filter (fun f => decide (f.hash = some h)) ≠ []) :
    (h, files.filter (fun f => decide (f.hash = some h))) ∈
      buildHashMap files := by
  have hnone := buildAux_none files [] h
  have hgetd := buildAux_getD files [] h
  rw [buildHashMap]
  cases hfind : assocFind (files.foldl buildStep []) h with
  | none =>
      exfalso
      exact hne ((hnone.mp hfind).2)
  | some l =>
      have : l = files.filter (fun f => decide (f.hash = some h)) := by
        rw [hfind] at hgetd
        simpa [assocFind] using hgetd
      rw [← this]
      exact mem_of_assocFind _ h l hfind

theorem mkGroup_hash (h : String) (l : List FileMetadata) :
    (mkGroup h l).hash = h := by
  cases l <;> rfl

theorem perm_insertDesc (g : DuplicateGroup) :
    ∀ l, List.Perm (insertDesc g l) (g :: l) := by
  intro l
  induction l with
  | nil => exact List.Perm.refl _
  | cons h t ih =>
      rw [insertDesc]
      by_cases hc : h.wastedBytes ≤ g.wastedBytes
      · rw [if_pos hc]
      · rw [if_neg hc]
        exact (List.Perm.cons h ih).trans (List.Perm.swap g h t)

theorem perm_sortDescByWasted : ∀ l, List.Perm (sortDescByWasted l) l := by
  intro l
  induction l with
  | nil => exact List.Perm.refl _
  | cons a t ih =>
      have hstep : sortDescByWasted (a :: t) =
          insertDesc a (sortDescByWasted t) := rfl
      rw [hstep]
      exact (perm_insertDesc a _).trans (List.Perm.cons a ih)

theorem wastedSortedDesc_cons_cons (a b : DuplicateGroup)
    (t : List DuplicateGroup) :
    wastedSortedDesc (a :: b :: t) = true ↔
      b.wastedBytes ≤ a.wastedBytes ∧ wastedSortedDesc (b :: t) = true := by
  rw [wastedSortedDesc]
  simp

theorem wastedSortedDesc_insert (g : DuplicateGroup) :
    ∀ l, wastedSortedDesc l = true →
      wastedSortedDesc (insertDesc g l) = true := by
  intro l
  induction l with
  | nil => intro _; rfl
  | cons a t ih =>
      intro hs
      rw [insertDesc]
      by_cases hc : a.wastedBytes ≤ g.wastedBytes
      · rw [if_pos hc]
        exact (wastedSortedDesc_cons_cons g a t).mpr ⟨hc, hs⟩
      · rw [if_neg hc]
        have hga : g.wastedBytes ≤ a.wastedBytes :=
          le_of_lt (not_le.mp hc)
        cases t with
        | nil =>
            have h1 : insertDesc g [] = [g] := rfl
            rw [h1]
            exact (wastedSortedDesc_cons_cons a g []).mpr ⟨hga, rfl⟩
        | cons b t2 =>
            obtain ⟨hba, hs2⟩ := (wastedSortedDesc_cons_cons a b t2).mp hs
            have hins := ih hs2
            by_cases hbg : b.wastedBytes ≤ g.wastedBytes
            · rw [insertDesc, if_pos hbg] at hins ⊢
              exact (wastedSortedDesc_cons_cons a g (b :: t2)).mpr ⟨hga, hins⟩
            · rw [insertDesc, if_neg hbg] at hins ⊢
              exact (wastedSortedDesc_cons_cons a b
                (insertDesc g t2)).mpr ⟨hba, hins⟩

theorem wastedSortedDesc_sortDesc (l : List DuplicateGroup) :
    wastedSortedDesc (sortDescByWasted l) = true := by
  induction l with
  | nil => rfl
  | cons a t ih =>
      have hstep : sortDescByWasted (a :: t) =
          insertDesc a (sortDescByWasted t) := rfl
      rw [hstep]
      exact wastedSortedDesc_insert a _ ih

/-- C3 counterexample: three identical-content files of sizes 10, 20
and 30 bytes form one group whose wastedBytes is 50 (the total minus
the FIRST member), not 30 (the total minus the largest member) as the
claim states. -/
theorem C3_counterexample :
    detectDuplicates
      [⟨"/f1", 10, some "h"⟩, ⟨"/f2", 20, some "h"⟩, ⟨"/f3", 30, some "h"⟩] =
      [⟨"h", [⟨"/f1", 10, some "h"⟩, ⟨"/f2", 20, some "h"⟩,
        ⟨"/f3", 30, some "h"⟩], 50⟩] ∧
    (50 : Nat) ≠ 30 := by
  constructor
  · rfl
  · decide

/-- C3 amended: detectDuplicates returns one group per hash shared by
at least two files (groups of size one are discarded), each group
listing exactly the files carrying its hash in input order, with
wastedBytes equal to the sum of all member sizes minus the size of the
FIRST member of the group (the first file of that hash in input order,
not the largest member), and the groups sorted descending by
wastedBytes. -/
theorem C3_detectDuplicates_amended (files : List FileMetadata) :
    (∀ g ∈ detectDuplicates files,
      2 ≤ g.files.length ∧
      g.files = files.filter (fun f => decide (f.hash = some g.hash)) ∧
      ∃ f0 t, g.files = f0 :: t ∧
        g.wastedBytes = sumSizes g.files - f0.size) ∧
    (∀ h, 2 ≤ (files.filter (fun f => decide (f.hash = some h))).length →
      ∃ g ∈ detectDuplicates files, g.hash = h) ∧
    ((detectDuplicates files).map (fun g => g.hash)).Nodup ∧
    wastedSortedDesc (detectDuplicates files) = true := by
  have hperm : List.Perm (detectDuplicates files)
      (((buildHashMap files).filter
        (fun kv => decide (1 < kv.2.length))).map
        (fun kv => mkGroup kv.1 kv.2)) := by
    rw [detectDuplicates]
    exact perm_sortDescByWasted _
  refine ⟨?_, ?_, ?_, ?_⟩
  · intro g hg
    have hg2 := hperm.mem_iff.mp hg
    obtain ⟨kv, hkv, rfl⟩ := List.mem_map.mp hg2
    obtain ⟨hmem, hlen⟩ := List.mem_filter.mp hkv
    have hlen2 : 1 < kv.2.length := by simpa using hlen
    have hfiles := buildHashMap_entry files kv hmem
    obtain ⟨k, l⟩ := kv
    cases l with
    | nil => simp at hlen2
    | cons f0 t => exact ⟨hlen2, hfiles, f0, t, rfl, rfl⟩
  · intro h hlen
    have hne : files.filter (fun f => decide (f.hash = some h)) ≠ [] := by
      intro hnil
      rw [hnil] at hlen
      simp at hlen
    have hmem := buildHashMap_complete files h hne
    have hlen2 : 1 <
        (files.filter (fun f => decide (f.hash = some h))).length := by
      omega
    refine ⟨mkGroup h (files.filter (fun f => decide (f.hash = some h))),
      ?_, mkGroup_hash _ _⟩
    apply hperm.mem_iff.mpr
    exact List.mem_map.mpr
      ⟨(h, files.filter (fun f => decide (f.hash = some h))),
        List.mem_filter.mpr ⟨hmem, by simpa using hlen2⟩, rfl⟩
  · have hmapeq : (((buildHashMap files).filter
        (fun kv => decide (1 < kv.2.length))).map
        (fun kv => mkGroup kv.1 kv.2)).map (fun g => g.hash) =
        ((buildHashMap files).filter
          (fun kv => decide (1 < kv.2.length))).map Prod.fst := by
      rw [List.map_map]
      apply List.map_congr_left
      intro kv _
      exact mkGroup_hash kv.1 kv.2
    have hnd : (((buildHashMap files).filter
        (fun kv => decide (1 < kv.2.length))).map Prod.fst).Nodup := by
      have hsub : List.Sublist
          (((buildHashMap files).filter
            (fun kv => decide (1 < kv.2.length))).map Prod.fst)
          ((buildHashMap files).map Prod.fst) :=
        (List.filter_sublist _).map Prod.fst
      have hkeys : ((buildHashMap files).map Prod.fst).Nodup := by
        have := nodup_hashKeys_buildAux files [] (by simp [hashKeys])
        simpa [hashKeys, buildHashMap] using this
      exact hkeys.sublist hsub
    have := (hperm.map (fun g => g.hash)).nodup_iff
    rw [hmapeq] at this
    exact this.mpr hnd
  · rw [detectDuplicates]
    exact wastedSortedDesc_sortDesc _

end Tidyf
